import Mathlib

/-!
# Fox Valley dashboard — verification of the reconciliation pipeline

Shallow embedding of the portfolio/screen reconciliation logic of the
Fox Valley dashboard repository, together with theorems settling the
frozen claims about it.

Sources embedded (Python → Lean):
* `fox_valley_dashboard.py` — module-level portfolio cleaning
  (paren-negative → leading minus, `$`/`,` strip, `pd.to_numeric`
  with `errors="ignore"`), `load_latest_file`, `merge_zacks_screens`,
  `score_zacks_candidates`, `get_top_n`, `compute_portfolio_metrics`,
  `available_cash`.
* `fox_valley_dashboard_updated.py` — `_pick_latest`, `normalize_zacks`,
  `cross_match`, `build_intel_overlay` (candidate dedup, `cash_pct`).
* `unnamed/part_000` and the v6.2R engine — ticker normalization and the
  `money_cols` cleaning (`[\$,()%+]` strip then `pd.to_numeric(coerce)`).
* `modules/portfolio_engine.py` / `modules/dashboard_engine.py` —
  `compute_portfolio_metrics`, `compute_synthetic_gain`,
  `compute_dashboard_metrics` (manual cash override).

Numbers are modelled as exact rationals (`ℚ`); pandas `NaN` is the
explicit `Cell.nan` constructor.  Fallible parsing returns `Option`.
-/

namespace FoxValley

/-! ## Basic character/string helpers -/

/-- Lowercase a string character-wise (model of Python `str.lower()` for the
ASCII file names and column headers that the dashboard handles). -/
def strLower (s : String) : String :=
  String.mk (s.toList.map Char.toLower)

/-- Substring containment on character lists via prefix tests at every
position: model of Python's `needle in hay`. -/
def containsSub (needle : List Char) : List Char → Bool
  | [] => needle.isEmpty
  | c :: rest => needle.isPrefixOf (c :: rest) || containsSub needle rest

/-- Model of Python `needle in hay` on strings. -/
def strContains (hay needle : String) : Bool :=
  containsSub needle.toList hay.toList

/-- Model of Python `hay.endswith(needle)`. -/
def strEndsWith (hay needle : String) : Bool :=
  needle.toList.isSuffixOf hay.toList

/-- Model of Python `str.strip()`: drop whitespace from both ends. -/
def trimChars (cs : List Char) : List Char :=
  ((cs.dropWhile Char.isWhitespace).reverse.dropWhile Char.isWhitespace).reverse

/-! ## Decimal parsing (model of `pd.to_numeric` on simple numeric strings)

`pd.to_numeric` parses an optional sign, an integer part and a fractional
part (this is the shape of every cell the dashboard feeds it).  To keep
the parser kernel-computable we first produce an integer mantissa and a
decimal exponent, and convert to `ℚ` at the boundary. -/

/-- Value of a non-empty all-digit character list, else `none`. -/
def digitsVal? (cs : List Char) : Option ℕ :=
  if cs.isEmpty then none
  else if cs.all Char.isDigit then
    some (cs.foldl (fun n c => n * 10 + (c.toNat - 48)) 0)
  else none

/-- Value of an all-digit character list, treating the empty list as `0`
(used for the parts around a decimal point: `"1."` parses as `1.0`). -/
def digitsValE? (cs : List Char) : Option ℕ :=
  if cs.all Char.isDigit then
    some (cs.foldl (fun n c => n * 10 + (c.toNat - 48)) 0)
  else none

/-- Parse an unsigned decimal: `digits` or `digits.digits` (either side of
the point may be empty, but not both).  Returns mantissa and number of
fractional digits. -/
def parseUnsigned? (cs : List Char) : Option (ℕ × ℕ) :=
  match cs.splitOn '.' with
  | [i] => (digitsVal? i).map (fun n => (n, 0))
  | [i, f] =>
    if i.isEmpty && f.isEmpty then none
    else
      match digitsValE? i, digitsValE? f with
      | some ni, some nf => some (ni * 10 ^ f.length + nf, f.length)
      | _, _ => none
  | _ => none

/-- Parse a signed decimal into mantissa/exponent form. -/
def parseSigned? : List Char → Option (ℤ × ℕ)
  | '-' :: rest => (parseUnsigned? rest).map (fun p => (-(p.1 : ℤ), p.2))
  | '+' :: rest => (parseUnsigned? rest).map (fun p => ((p.1 : ℤ), p.2))
  | cs => (parseUnsigned? cs).map (fun p => ((p.1 : ℤ), p.2))

/-- Convert mantissa/exponent parts to a rational. -/
def partsToRat (p : ℤ × ℕ) : ℚ :=
  (p.1 : ℚ) / (10 : ℚ) ^ p.2

/-- Model of `pd.to_numeric` on one string cell (surrounding whitespace is
accepted, as pandas does). -/
def toNumericParts? (s : String) : Option (ℤ × ℕ) :=
  parseSigned? (trimChars s.toList)

/-- Numeric value of a string cell under `pd.to_numeric`, if it parses. -/
def toNumericStr? (s : String) : Option ℚ :=
  (toNumericParts? s).map partsToRat

/-! ## The paren-negative rewrite of the dashboard cleaning

`fox_valley_dashboard.py` (module level, and `load_portfolio` in
`modules/portfolio_engine.py`) cleans the portfolio frame with
`df.replace(r"\((.*?)\)", r"-\1", regex=True).replace(r"[\$,]", "", regex=True)`.
`re.sub` with the non-greedy group rewrites every `( … )` pair (up to the
first closing paren) to `-…`. -/

/-- Split a character list at the first `')'`: returns the part before it
and the part after it. -/
def splitAtClose : List Char → Option (List Char × List Char)
  | [] => none
  | c :: rest =>
    if c = ')' then some ([], rest)
    else (splitAtClose rest).map (fun p => (c :: p.1, p.2))

theorem splitAtClose_length {cs inner after : List Char}
    (h : splitAtClose cs = some (inner, after)) : after.length < cs.length := by
  induction cs generalizing inner after with
  | nil => simp [splitAtClose] at h
  | cons c rest ih =>
    rw [splitAtClose] at h
    split at h
    · simp only [Option.some.injEq, Prod.mk.injEq] at h
      obtain ⟨-, h2⟩ := h
      subst h2
      simp [List.length_cons]
    · simp only [Option.map_eq_some'] at h
      obtain ⟨p, hp, hpe⟩ := h
      have hlt := @ih p.1 p.2 (by simpa using hp)
      have hae : after = p.2 := by
        have := congrArg Prod.snd hpe
        simpa using this.symm
      subst hae
      simp only [List.length_cons]
      omega

/-- Worker for `parenSub`, structurally recursive on a fuel argument so
that the kernel can evaluate it; by `splitAtClose_length` every recursive
call strictly shortens the list, so fuel `cs.length` is never exhausted. -/
def parenSubAux : ℕ → List Char → List Char
  | 0, cs => cs
  | _ + 1, [] => []
  | fuel + 1, c :: rest =>
    if c = '(' then
      match splitAtClose rest with
      | some p => '-' :: p.1 ++ parenSubAux fuel p.2
      | none => '(' :: parenSubAux fuel rest
    else
      c :: parenSubAux fuel rest

/-- Model of `re.sub(r"\((.*?)\)", r"-\1", s)`: rewrite every
parenthesised group (up to the first `')'`) to `-` followed by the
group's content; an unmatched `'('` is kept literally. -/
def parenSub (cs : List Char) : List Char :=
  parenSubAux cs.length cs

/-- Model of `re.sub(r"[\$,]", "", s)`. -/
def stripDollarComma (cs : List Char) : List Char :=
  cs.filter (fun c => !(c = '$' || c = ','))

/-- The cleaned string a cell goes through in the module-level portfolio
cleaning of `fox_valley_dashboard.py` (and `load_portfolio` of
`modules/portfolio_engine.py`): paren-negative rewrite, then `$`/`,`
strip. -/
def dashboardCleanStr (s : String) : String :=
  String.mk (stripDollarComma (parenSub s.toList))

/-- Mantissa/exponent parts of a dashboard-cleaned cell, if it parses. -/
def dashboardCleanParts? (s : String) : Option (ℤ × ℕ) :=
  toNumericParts? (dashboardCleanStr s)

/-- Numeric value of a dashboard-cleaned cell, if it parses. -/
def dashboardClean? (s : String) : Option ℚ :=
  (dashboardCleanParts? s).map partsToRat

/-! ## Cells (pandas values)

A pandas cell in this codebase is either a string, a (floating point)
number — modelled exactly as a rational — or `NaN`. -/

inductive Cell where
  | str (s : String)
  | num (q : ℚ)
  | nan
deriving DecidableEq, Repr

/-- Decimal digit character for `n % 10`. -/
def digitCh (n : ℕ) : Char :=
  match n % 10 with
  | 0 => '0' | 1 => '1' | 2 => '2' | 3 => '3' | 4 => '4'
  | 5 => '5' | 6 => '6' | 7 => '7' | 8 => '8' | _ => '9'

/-- Decimal digit string of a natural number. -/
def natStr (n : ℕ) : List Char :=
  if h : n < 10 then [digitCh n]
  else natStr (n / 10) ++ [digitCh n]
termination_by n
decreasing_by
  exact Nat.div_lt_self (by omega) (by omega)

/-- Decimal digit string of an integer. -/
def intStr (i : ℤ) : List Char :=
  if i < 0 then '-' :: natStr i.natAbs else natStr i.natAbs

/-- Rendering of a numeric cell as a string (model of Python `str()` on a
float; only the facts that it contains a decimal digit and is not a
ticker-shaped string matter downstream). -/
def numToStr (q : ℚ) : List Char :=
  intStr q.num ++ (if q.den = 1 then [] else '/' :: natStr q.den)

/-- Model of `astype(str)` on one cell (`str(nan)` is `"nan"`). -/
def cellToString : Cell → String
  | .str s => s
  | .num q => String.mk (numToStr q)
  | .nan => "nan"

/-- Model of `astype(str)` as a cell-to-cell map. -/
def asStr (c : Cell) : Cell := .str (cellToString c)

/-- Model of `pd.to_numeric(·, errors="coerce")` on one cell: numbers and
`NaN` pass through, strings parse or become `NaN`. -/
def toNumericCoerce : Cell → Cell
  | .str s =>
    match toNumericParts? s with
    | some p => .num (partsToRat p)
    | none => .nan
  | .num q => .num q
  | .nan => .nan

/-- Numeric value of a cell with `NaN → 0` (the `fillna(0)` composition the
metrics code uses). -/
def cellToNum0 (c : Cell) : ℚ :=
  match toNumericCoerce c with
  | .num q => q
  | _ => 0

/-- Does a cell survive `pd.to_numeric` without error? (Numbers and `NaN`
always do.) -/
def cellParses : Cell → Bool
  | .str s => (toNumericParts? s).isSome
  | _ => true

/-- Model of `pd.to_numeric(col, errors="ignore")` as applied column-wise by
`df.apply` in `fox_valley_dashboard.py`: if every cell of the column
converts, the column is converted; otherwise it is returned unchanged. -/
def toNumericIgnoreCol (cells : List Cell) : List Cell :=
  if cells.all cellParses then cells.map toNumericCoerce else cells

/-! ## The `money_cols` cleaning of `unnamed/part_000` / the v6.2R engine

`portfolio[col].astype(str).str.replace('[\$,()%+]', '', regex=True).str.strip()`
followed by `pd.to_numeric(errors="coerce")`.  Note that this strips the
parentheses of the Fidelity negative notation without inserting a minus
sign. -/

/-- Strip every `$`, `,`, `(`, `)`, `%`, `+` character. -/
def stripMoneyChars (cs : List Char) : List Char :=
  cs.filter (fun c => !(c = '$' || c = ',' || c = '(' || c = ')' || c = '%' || c = '+'))

/-- The string a cell is reduced to by the `money_cols` cleaning. -/
def moneyCleanStr (s : String) : String :=
  String.mk (trimChars (stripMoneyChars s.toList))

/-- Mantissa/exponent parts of a `money_cols`-cleaned cell, if it parses. -/
def moneyCleanParts? (s : String) : Option (ℤ × ℕ) :=
  toNumericParts? (moneyCleanStr s)

/-- Numeric value of a `money_cols`-cleaned cell (`errors="coerce"`
semantics: unparseable → `NaN`, modelled as `none`). -/
def moneyClean? (s : String) : Option ℚ :=
  (moneyCleanParts? s).map partsToRat

/-! ## Ticker normalization (`unnamed/part_000` and the v6.2R engine)

`portfolio["Ticker"].astype(str).str.strip().str.upper()` followed by
`str.replace(r"[^A-Z]", "", regex=True)`. -/

/-- Is the character an uppercase ASCII letter? -/
def isAZ (c : Char) : Bool := 'A' ≤ c && c ≤ 'Z'

/-- Normalize a ticker string: strip surrounding whitespace, uppercase,
then delete every character outside `A`–`Z`. -/
def tickerNorm (s : String) : String :=
  String.mk (((trimChars s.toList).map Char.toUpper).filter isAZ)

/-! ## Normalized screen rows, cross-match and candidate dedup

`normalize_zacks` emits a frame with columns `Ticker` (string) and
`Zacks Rank` (numeric or `NaN`).  `cross_match` left-merges the screen
frame with the portfolio's `Ticker` column (both sides `astype(str)`)
with `indicator=True` and maps `_merge` to a Held/Candidate flag.
`build_intel_overlay` concatenates the three screens and drops duplicate
tickers with `drop_duplicates(subset=["Ticker"])` (pandas keeps the first
occurrence). -/

structure ZEntry where
  ticker : String
  rank : Option ℚ
deriving DecidableEq, Repr

/-- Model of `cross_match`: every screen row is paired with the rows of
the portfolio `Ticker` column that share its ticker (a left merge); a row
with no partner keeps the flag `false` (`🟢 Candidate`), a matched row is
flagged `true` (`✔ Held`) once per partner, as the merge duplicates it. -/
def crossMatch (zdf : List ZEntry) (pfTickers : List String) : List (ZEntry × Bool) :=
  zdf.flatMap (fun r =>
    let m := pfTickers.filter (fun t => t = r.ticker)
    if m.isEmpty then [(r, false)] else m.map (fun _ => (r, true)))

/-- Model of `drop_duplicates(subset=["Ticker"])`: keep the first
occurrence of every ticker, preserving order. -/
def dedupByTicker : List ZEntry → List ZEntry
  | [] => []
  | r :: rs => r :: dedupByTicker (rs.filter (fun x => !(x.ticker = r.ticker)))
termination_by l => l.length
decreasing_by
  exact Nat.lt_succ_of_le (List.length_filter_le _ _)

/-- Model of the candidate merge in `build_intel_overlay`: the three
normalized screens are concatenated (`pd.concat`, preserving order
Growth 1, Growth 2, Defensive Dividend) and deduplicated by ticker.  The
`pd.to_numeric` re-coercion of the already numeric `Zacks Rank` column is
the identity and is elided. -/
def buildCombined (g1 g2 dd : List ZEntry) : List ZEntry :=
  dedupByTicker (g1 ++ g2 ++ dd)

/-! ## File Selector (`_pick_latest` of `fox_valley_dashboard_updated.py`)

`_pick_latest` lowercases each file name, filters it by a kind hint,
extracts the first `YYYY-MM-DD` token with `re.search`, sorts the
`(date, path)` candidates by date with Python's stable `list.sort`
(`key=lambda t: t[0]`) and returns the last element. -/

/-- Does a 4-digit/2-digit/2-digit date start here? -/
def dateHere? : List Char → Option (List Char)
  | a :: b :: c :: d :: '-' :: e :: f :: '-' :: g :: h :: _ =>
    if [a, b, c, d, e, f, g, h].all Char.isDigit then
      some [a, b, c, d, '-', e, f, '-', g, h]
    else none
  | _ => none

/-- Model of `re.search(r"(\d{4}-\d{2}-\d{2})", s)`: the leftmost date
token, if any. -/
def findDate : List Char → Option String
  | [] => none
  | c :: rest =>
    match dateHere? (c :: rest) with
    | some d => some (String.mk d)
    | none => findDate rest

/-- The three kind hints of `_pick_latest`. -/
inductive Kind where
  | g1 | g2 | dd
deriving DecidableEq, Repr

/-- The name test `_pick_latest` applies to the lowercased file name for
each kind hint. -/
def kindMatch : Kind → String → Bool
  | .g1, n => strContains n "growth1" || strContains n "growth 1"
  | .g2, n => strContains n "growth2" || strContains n "growth 2"
  | .dd, n => strContains n "defens" && strContains n "dividend"

/-- The `(date, path)` candidate list `_pick_latest` builds. -/
def candidatesFor (k : Kind) (paths : List String) : List (String × String) :=
  paths.filterMap (fun p =>
    let nm := strLower p
    if kindMatch k nm then (findDate nm.toList).map (fun d => (d, p)) else none)

/-- Kernel-computable lexicographic order on character lists (the order
Python string comparison uses on the all-ASCII date tokens). -/
def listLe : List Char → List Char → Bool
  | [], _ => true
  | _ :: _, [] => false
  | a :: as, b :: bs =>
    if a.toNat < b.toNat then true
    else if b.toNat < a.toNat then false
    else listLe as bs

/-- Date-key comparison on `(date, path)` candidates. -/
def dateLe (p q : String × String) : Bool :=
  listLe p.1.toList q.1.toList

/-- Stable insertion: `x` goes before the first element it is
strictly-before; among equal keys the inserted (earlier-listed) element
stays first, as in Python's stable sort. -/
def insLe {α : Type} (le : α → α → Bool) (x : α) : List α → List α
  | [] => [x]
  | y :: ys => if le x y then x :: y :: ys else y :: insLe le x ys

/-- Stable insertion sort (model of Python `list.sort(key=...)`). -/
def isortLe {α : Type} (le : α → α → Bool) : List α → List α
  | [] => []
  | x :: xs => insLe le x (isortLe le xs)

/-- Model of `_pick_latest`: sort the candidates by date and return the
path of the last one (`candidates[-1][1]`), or `None` if there is no
candidate. -/
def pickLatest (k : Kind) (paths : List String) : Option String :=
  let candidates := candidatesFor k paths
  if candidates.isEmpty then none
  else ((isortLe dateLe candidates).getLast?).map (fun t => t.2)

/-! ## Core file loader (`load_latest_file` of `fox_valley_dashboard.py`)

The directory is modelled as `Option (List FileEnt)` (`none` = the
directory does not exist); each entry carries the file name and its
filesystem modification time.  Reading the CSV contents is elided — the
claims concern the selection, which depends only on names and mtimes. -/

structure FileEnt where
  name : String
  mtime : ℕ
deriving DecidableEq, Repr

/-- The filter `pattern in f and f.endswith(".csv")`. -/
def fileMatches (pattern : String) (f : FileEnt) : Bool :=
  strContains f.name pattern && strEndsWith f.name ".csv"

/-- Key order for `sorted(..., key=mtime, reverse=True)` (stable,
descending). -/
def mtimeDesc (a b : FileEnt) : Bool :=
  decide (b.mtime ≤ a.mtime)

/-- Model of `load_latest_file`: `(None, None)` — here `none` — when the
directory is missing or no file matches; otherwise the matching file with
the newest modification time. -/
def loadLatestFile (pattern : String) (dir : Option (List FileEnt)) : Option FileEnt :=
  match dir with
  | none => none
  | some fs =>
    let files := fs.filter (fileMatches pattern)
    if files.isEmpty then none
    else (isortLe mtimeDesc files).head?

/-! ## Zacks screen merge and scoring (`fox_valley_dashboard.py`)

`merge_zacks_screens` walks `VALID_SCREEN_TYPES` in order, tags each
present screen with its `Source` label (`prepare_screen`; the
column-name strip it also performs is elided) and concatenates them;
with nothing present it returns an empty frame.  `score_zacks_candidates`
computes a per-row composite score and sorts descending. -/

inductive ScreenType where
  | growth1 | growth2 | defensiveDividend
deriving DecidableEq, Repr

def screenLabel : ScreenType → String
  | .growth1 => "Growth1"
  | .growth2 => "Growth2"
  | .defensiveDividend => "DefensiveDividend"

/-- An unlabelled screen row: the cells the scorer reads. -/
structure RawSRow where
  zacksRank : Cell
  priceChange : Cell
  marketCap : Cell
deriving DecidableEq, Repr

/-- A screen row after `prepare_screen` tagged it with its source. -/
structure SRow where
  zacksRank : Cell
  priceChange : Cell
  marketCap : Cell
  source : String
deriving DecidableEq, Repr

/-- Model of `prepare_screen`: tag every row with the source label. -/
def prepareScreen (rows : List RawSRow) (label : String) : List SRow :=
  rows.map (fun r => ⟨r.zacksRank, r.priceChange, r.marketCap, label⟩)

/-- Model of `merge_zacks_screens` over the auto-detected screen
dictionary. -/
def mergeZacksScreens (d : ScreenType → Option (List RawSRow)) : List SRow :=
  let prepared := [ScreenType.growth1, ScreenType.growth2,
    ScreenType.defensiveDividend].filterMap
    (fun t => (d t).map (fun rows => prepareScreen rows (screenLabel t)))
  if prepared.isEmpty then [] else prepared.flatten

/-- Model of `.astype(str).str.extract(r"(\d)").astype(float)`: the first
decimal digit of the string, as a number, else `NaN` (`none`). -/
def extractDigit? (s : String) : Option ℚ :=
  (s.toList.find? Char.isDigit).map (fun c => ((c.toNat - 48 : ℕ) : ℚ))

/-- The `source_weight` table of `score_zacks_candidates`. -/
def sourceWeight (src : String) : ℚ :=
  if src = "Growth1" then 115 / 100
  else if src = "Growth2" then 110 / 100
  else if src = "DefensiveDividend" then 105 / 100
  else 1

/-- Per-row `RankScore` (`5.0` when the rank column is absent, `NaN` when
the cell has no digit). -/
def rankScore (hasRank : Bool) (r : SRow) : Option ℚ :=
  if hasRank then extractDigit? (cellToString r.zacksRank) else some 5

/-- Per-row `Momentum` (`fillna(0)` applied, so never `NaN`). -/
def momentum (hasMom : Bool) (r : SRow) : ℚ :=
  if hasMom then cellToNum0 r.priceChange else 0

/-- Per-row `SizeScore` (`fillna(0)` applied). -/
def sizeScore (hasCap : Bool) (r : SRow) : ℚ :=
  if hasCap then cellToNum0 r.marketCap else 0

/-- Per-row `CompositeScore` (`NaN` — `none` — exactly when `RankScore`
is `NaN`). -/
def compositeScore (hasRank hasMom hasCap : Bool) (r : SRow) : Option ℚ :=
  (rankScore hasRank r).map (fun rs =>
    ((6 - rs) * 5 + momentum hasMom r * (2 / 10)
      + sizeScore hasCap r * (1 / 100000)) * sourceWeight r.source)

/-- Descending comparison on scores for `sort_values(ascending=False)`. -/
def scoreGe (p q : SRow × Option ℚ) : Bool :=
  match p.2, q.2 with
  | some a, some b => decide (b ≤ a)
  | _, _ => true

/-- Model of `score_zacks_candidates`: empty in, empty out; otherwise each
row is scored and the rows are sorted by score, best first, `NaN` scores
last (`sort_values` drops no rows; its tie order is unspecified in pandas
and an insertion sort stands in for it). -/
def scoreZacks (hasRank hasMom hasCap : Bool) (rows : List SRow) :
    List (SRow × Option ℚ) :=
  if rows.isEmpty then []
  else
    let scored := rows.map (fun r => (r, compositeScore hasRank hasMom hasCap r))
    let withScore := scored.filter (fun p => p.2.isSome)
    let noScore := scored.filter (fun p => !p.2.isSome)
    isortLe scoreGe withScore ++ noScore

/-- Model of `get_top_n`. -/
def getTopN {α : Type} (rows : List α) (n : ℕ) : List α :=
  if rows.isEmpty then [] else rows.take n

/-! ## Portfolio metrics (`modules/portfolio_engine.py`)

`compute_portfolio_metrics` returns total value, detected cash value and
the value-weighted average gain/loss.  Column presence is table-level in
pandas, so the table carries presence flags next to its rows; `gainCell`
is a row's value under the first detected gain/loss column. -/

structure PRow where
  ticker : Cell
  currentValue : Cell
  gainCell : Cell
  costBasis : Cell
deriving DecidableEq, Repr

structure PTable where
  rows : List PRow
  hasTicker : Bool
  hasCurrentValue : Bool
  hasGainCol : Bool
  hasCostBasis : Bool
deriving DecidableEq, Repr

/-- A row's contribution to `current_value_series` (a missing
`Current Value` column yields the empty series, whose aggregate is 0). -/
def cvOf (p : PTable) (r : PRow) : ℚ :=
  if p.hasCurrentValue then cellToNum0 r.currentValue else 0

/-- Model of `total_value = current_value_series.sum()`. -/
def totalValueOf (p : PTable) : ℚ :=
  (p.rows.map (cvOf p)).sum

/-- Model of `compute_synthetic_gain` on one row: `to_numeric` both cells,
`Cost Basis` zeros become `NaN`, gain is `(cv - cb) / cb * 100`, `NaN`
filled with 0.  With either column missing the series is all zeros. -/
def syntheticGain (p : PTable) (r : PRow) : ℚ :=
  if p.hasCurrentValue && p.hasCostBasis then
    match toNumericCoerce r.costBasis with
    | .num q => if q = 0 then 0 else (cellToNum0 r.currentValue - q) / q * 100
    | _ => 0
  else 0

/-- The per-row `numeric_gain`: the detected gain column (coerced,
`fillna(0)`) or the synthetic fallback. -/
def numericGain (p : PTable) (r : PRow) : ℚ :=
  if p.hasGainCol then cellToNum0 r.gainCell else syntheticGain p r

/-- The rows whose `Ticker` equals `"cash"` case-insensitively
(`df["Ticker"].astype(str).str.lower().eq("cash")`). -/
def cashRowsOf (p : PTable) : List PRow :=
  p.rows.filter (fun r => strLower (cellToString r.ticker) = "cash")

/-- Model of `compute_portfolio_metrics`: `(total_value, cash_value,
avg_gain)`.  An empty frame short-circuits to `(0, 0, None)`.  Reading
`cash_rows["Current Value"]` without a `Current Value` column raises a
`KeyError` that the enclosing `except` turns into `(0, 0, None)`. -/
def computePortfolioMetrics (p : PTable) : ℚ × ℚ × Option ℚ :=
  if p.rows.isEmpty then (0, 0, none)
  else if p.hasTicker && !(cashRowsOf p).isEmpty && !p.hasCurrentValue then
    (0, 0, none)
  else
    let total := totalValueOf p
    let avg : Option ℚ :=
      if 0 < total then
        some ((p.rows.map (fun r => numericGain p r * cvOf p r)).sum / total)
      else none
    let cash : ℚ :=
      if p.hasTicker && !(cashRowsOf p).isEmpty then
        ((cashRowsOf p).map (fun r => cellToNum0 r.currentValue)).sum
      else 0
    (total, cash, avg)

/-- Model of `available_cash = manual_cash if manual_cash > 0 else
cash_value` (`fox_valley_dashboard.py` and `compute_dashboard_metrics`). -/
def availableCash (manualCash cashValue : ℚ) : ℚ :=
  if 0 < manualCash then manualCash else cashValue

/-- Model of `compute_dashboard_metrics` of `modules/dashboard_engine.py`. -/
def computeDashboardMetrics (p : PTable) (manualCashOverride : ℚ) :
    ℚ × ℚ × Option ℚ :=
  let m := computePortfolioMetrics p
  (m.1, availableCash manualCashOverride m.2.1, m.2.2)

/-- Model of `cash_pct = (cash_val / total_val) * 100 if total_val > 0
else 0` (`build_intel_overlay`). -/
def cashPct (cashVal totalVal : ℚ) : ℚ :=
  if 0 < totalVal then cashVal / totalVal * 100 else 0

/-! ## Classification & Allocation Engine (spec §4.4)

Modelled from the spec: the Classification & Allocation Engine is not
present under `src/` (no allocation, `deploy_fraction` or
`position_cap_pct` code exists in the repository); the definitions below
follow the spec's algorithm verbatim. -/

/-- Modelled from the spec: `deployable = total_value × deploy_fraction`. -/
def deployableCash (totalValue deployFraction : ℚ) : ℚ :=
  totalValue * deployFraction

/-- Modelled from the spec:
`per_position_pct = min(position_cap_pct, (deployable / total_value) / n)`
if `n > 0`, else 0. -/
def perPositionPct (positionCapPct deployFraction totalValue : ℚ) (n : ℕ) : ℚ :=
  if n = 0 then 0
  else min positionCapPct
    ((deployableCash totalValue deployFraction / totalValue) / n)

/-- Modelled from the spec: each Buy-bucket candidate receives
`per_position_pct` of total value as its dollar allocation. -/
def allocationDollar (positionCapPct deployFraction totalValue : ℚ) (n : ℕ) : ℚ :=
  perPositionPct positionCapPct deployFraction totalValue n * totalValue

/-- Modelled from the spec: the list of dollar allocations over the `n`
Buy-bucket candidates. -/
def allocationPlan (positionCapPct deployFraction totalValue : ℚ) (n : ℕ) : List ℚ :=
  List.replicate n (allocationDollar positionCapPct deployFraction totalValue n)

/-! ## Column normalizer (`normalize_zacks` of `fox_valley_dashboard_updated.py`)

A frame is a list of named columns (pandas forbids useful work on
duplicate labels — `normalize_zacks` would raise assigning a two-column
selection — so lookups here take the first column with a name, matching
the unique-label frames the dashboard reads). -/

@[reducible] def Table : Type := List (String × List Cell)

/-- Model of `df.empty`: no columns or no rows. -/
def tableIsEmpty (t : Table) : Bool :=
  t.isEmpty || t.all (fun c => c.2.isEmpty)

/-- The column-name lowercasing `normalize_zacks` starts with. -/
def lowerCols (t : Table) : Table :=
  t.map (fun c => (strLower c.1, c.2))

/-- The ticker column names probed, in order. -/
def tickerKeys : List String := ["ticker", "symbol", "ticker symbol", "tk"]

/-- The rank column names probed, in order. -/
def rankKeys : List String := ["zacks rank", "zacksrank", "rank", "zacks_rank"]

/-- Model of `for key in keys: if key in df.columns: …` — the first key
present, with its column. -/
def findCol? (t : Table) (keys : List String) : Option (String × List Cell) :=
  keys.findSome? (fun k => t.find? (fun c => c.1 = k))

/-- Model of `str.match(r"^[A-Z.\-]{1,6}$")`: a full match of one to six
characters drawn from `A`–`Z`, `.`, `-`. -/
def tickerShaped (s : String) : Bool :=
  let cs := s.toList
  decide (1 ≤ cs.length) && decide (cs.length ≤ 6)
    && cs.all (fun c => isAZ c || c = '.' || c = '-')

/-- The fallback ticker-column detection: the first column some cell of
which, rendered as a string, is ticker-shaped. -/
def fallbackTickerCol? (t : Table) : Option (String × List Cell) :=
  t.find? (fun c => c.2.any (fun cell => tickerShaped (cellToString cell)))

/-- The ticker column `normalize_zacks` settles on: a known key name, or
the fallback detection. -/
def tickerColOf (t : Table) : Option (String × List Cell) :=
  match findCol? (lowerCols t) tickerKeys with
  | some c => some c
  | none => fallbackTickerCol? (lowerCols t)

/-- Model of `normalize_zacks`: empty frames pass through; otherwise the
detected ticker column is emitted `astype(str)` as `Ticker` and the
detected rank column is emitted `pd.to_numeric(errors="coerce")` as
`Zacks Rank`. -/
def normalizeZacks (t : Table) : Table :=
  if tableIsEmpty t then t
  else
    (match tickerColOf t with
     | some c => [("Ticker", c.2.map asStr)]
     | none => []) ++
    (match findCol? (lowerCols t) rankKeys with
     | some c => [("Zacks Rank", c.2.map toNumericCoerce)]
     | none => [])

/-! ## Cell-level lemmas -/

theorem asStr_asStr (c : Cell) : asStr (asStr c) = asStr c := rfl

theorem toNumericCoerce_idem (c : Cell) :
    toNumericCoerce (toNumericCoerce c) = toNumericCoerce c := by
  cases c with
  | str s =>
    cases h : toNumericParts? s with
    | some p => simp [toNumericCoerce, h]
    | none => simp [toNumericCoerce, h]
  | num q => rfl
  | nan => rfl

theorem digitCh_isDigit (n : ℕ) : (digitCh n).isDigit = true := by
  unfold digitCh
  split <;> decide

theorem natStr_has_digit (n : ℕ) : ∃ c ∈ natStr n, c.isDigit = true := by
  rw [natStr]
  by_cases h : n < 10
  · rw [dif_pos h]
    exact ⟨digitCh n, by simp, digitCh_isDigit n⟩
  · rw [dif_neg h]
    exact ⟨digitCh n, by simp, digitCh_isDigit n⟩

theorem numToStr_has_digit (q : ℚ) : ∃ c ∈ numToStr q, c.isDigit = true := by
  obtain ⟨c, hc, hd⟩ := natStr_has_digit q.num.natAbs
  refine ⟨c, ?_, hd⟩
  rw [numToStr, intStr]
  by_cases h : q.num < 0
  · rw [if_pos h]
    exact List.mem_append_left _ (List.mem_cons_of_mem _ hc)
  · rw [if_neg h]
    exact List.mem_append_left _ hc

theorem digit_not_tickerchar {c : Char} (h : c.isDigit = true) :
    (isAZ c || decide (c = '.') || decide (c = '-')) = false := by
  rw [Char.isDigit] at h
  simp only [Bool.and_eq_true, decide_eq_true_eq] at h
  obtain ⟨h1, h2⟩ := h
  have h0 : '0' ≤ c := Char.le_def.mpr h1
  have h9 : c ≤ '9' := Char.le_def.mpr h2
  have hA : ¬('A' ≤ c) := fun hA => absurd (le_trans hA h9) (by decide)
  have hdot : ¬(c = '.') := fun he => absurd h0 (by rw [he]; decide)
  have hdash : ¬(c = '-') := fun he => absurd h0 (by rw [he]; decide)
  simp [isAZ, hA, hdot, hdash]

theorem toNumericCoerce_shape (c : Cell) :
    (∃ q, toNumericCoerce c = .num q) ∨ toNumericCoerce c = .nan := by
  cases c with
  | str s =>
    cases h : toNumericParts? s with
    | some p => exact Or.inl ⟨partsToRat p, by simp [toNumericCoerce, h]⟩
    | none => exact Or.inr (by simp [toNumericCoerce, h])
  | num q => exact Or.inl ⟨q, rfl⟩
  | nan => exact Or.inr rfl

theorem tickerShaped_num (q : ℚ) :
    tickerShaped (cellToString (.num q)) = false := by
  obtain ⟨c, hc, hd⟩ := numToStr_has_digit q
  have hall : (numToStr q).all
      (fun c => isAZ c || decide (c = '.') || decide (c = '-')) = false := by
    apply List.all_eq_false.mpr
    exact ⟨c, hc, by simp [digit_not_tickerchar hd]⟩
  simp [tickerShaped, cellToString, hall]

theorem tickerShaped_coerce (c : Cell) :
    tickerShaped (cellToString (toNumericCoerce c)) = false := by
  rcases toNumericCoerce_shape c with ⟨q, hq⟩ | hq
  · rw [hq]; exact tickerShaped_num q
  · rw [hq]; decide

/-! ## Claim C2 — currency parsing -/

/-- C2 (counterexample): the claimed round-trip fails on the code. The
`money_cols` cleaning of `unnamed/part_000` strips the parentheses of
`"(1,234.56)"` without inserting a minus, so the value is `+1234.56`,
not `-1234.56`; and the dashboard cleaning never strips `%`, so
`"12.3%"` does not parse to `12.3` there. -/
theorem c2_roundtrip_counterexample :
    moneyClean? "(1,234.56)" ≠ some (-(123456 / 100 : ℚ)) ∧
    dashboardClean? "12.3%" ≠ some (123 / 10 : ℚ) := by
  constructor
  · have h : moneyCleanParts? "(1,234.56)" = some (123456, 2) := by decide
    rw [moneyClean?, h]
    simp only [Option.map_some', partsToRat, ne_eq, Option.some.injEq]
    norm_num
  · have h : dashboardCleanParts? "12.3%" = none := by decide
    rw [dashboardClean?, h]
    simp

/-- C2 (amended): the `money_cols` cleaning (strip `$ , ( ) % +`, then
parse) yields `1234.56`, `+1234.56` (the parenthesis sign is dropped) and
`12.3`; the dashboard cleaning (parenthesis → leading minus, strip `$ ,`,
then `pd.to_numeric(errors="ignore")`) yields `1234.56` and `-1234.56`
but leaves `"12.3%"` an unparsed string, so its column is returned
unchanged. -/
theorem c2_roundtrip_amended :
    moneyClean? "$1,234.56" = some (123456 / 100 : ℚ) ∧
    moneyClean? "(1,234.56)" = some (123456 / 100 : ℚ) ∧
    moneyClean? "12.3%" = some (123 / 10 : ℚ) ∧
    dashboardClean? "$1,234.56" = some (123456 / 100 : ℚ) ∧
    dashboardClean? "(1,234.56)" = some (-(123456 / 100 : ℚ)) ∧
    dashboardCleanStr "12.3%" = "12.3%" ∧
    toNumericIgnoreCol [Cell.str "12.3%"] = [Cell.str "12.3%"] := by
  refine ⟨?_, ?_, ?_, ?_, ?_, by decide, by decide⟩
  · have h : moneyCleanParts? "$1,234.56" = some (123456, 2) := by decide
    rw [moneyClean?, h]
    simp only [Option.map_some', partsToRat, Option.some.injEq]
    norm_num
  · have h : moneyCleanParts? "(1,234.56)" = some (123456, 2) := by decide
    rw [moneyClean?, h]
    simp only [Option.map_some', partsToRat, Option.some.injEq]
    norm_num
  · have h : moneyCleanParts? "12.3%" = some (123, 1) := by decide
    rw [moneyClean?, h]
    simp only [Option.map_some', partsToRat, Option.some.injEq]
    norm_num
  · have h : dashboardCleanParts? "$1,234.56" = some (123456, 2) := by decide
    rw [dashboardClean?, h]
    simp only [Option.map_some', partsToRat, Option.some.injEq]
    norm_num
  · have h : dashboardCleanParts? "(1,234.56)" = some (-123456, 2) := by decide
    rw [dashboardClean?, h]
    simp only [Option.map_some', partsToRat, Option.some.injEq]
    norm_num

/-! ## Claim C9 — ticker normalization -/

/-- C9 (counterexample): normalization does not always produce a
non-empty ticker — an all-digit input normalizes to the empty string. -/
theorem c9_ticker_counterexample : tickerNorm "123" = "" := by decide

/-- C9 (amended): every character of a normalized ticker is an uppercase
ASCII letter, and the result is non-empty whenever the stripped input
contains a character that uppercases into `A`–`Z` (it can be empty
otherwise, e.g. for `"123"`). -/
theorem c9_ticker_amended (s : String) :
    (∀ c ∈ (tickerNorm s).toList, isAZ c = true) ∧
    ((∃ c ∈ trimChars s.toList, isAZ (Char.toUpper c) = true) →
      tickerNorm s ≠ "") := by
  constructor
  · intro c hc
    have hc' : c ∈ ((trimChars s.toList).map Char.toUpper).filter isAZ := hc
    exact (List.mem_filter.mp hc').2
  · rintro ⟨c, hc, hAZ⟩ hempty
    have hmem : Char.toUpper c ∈
        ((trimChars s.toList).map Char.toUpper).filter isAZ :=
      List.mem_filter.mpr ⟨List.mem_map_of_mem _ hc, hAZ⟩
    have hnil : ((trimChars s.toList).map Char.toUpper).filter isAZ = [] := by
      have h := congrArg String.toList hempty
      simpa [tickerNorm] using h
    rw [hnil] at hmem
    simp at hmem

/-- C9 (witness): the amended theorem applied to the concrete input
`" aapl* "`, whose stripped form contains letters. -/
theorem c9_ticker_amended_witness : tickerNorm " aapl* " ≠ "" :=
  (c9_ticker_amended " aapl* ").2 (by decide)

/-! ## Claim C3 — cross-match totality -/

/-- C3: every screen row is classified by `cross_match` (it appears in
the output with a flag), and any output row's flag is `true` exactly when
its ticker occurs in the portfolio's `Ticker` column. -/
theorem c3_cross_match_total (zdf : List ZEntry) (pf : List String) :
    (∀ r ∈ zdf, ∃ b, (r, b) ∈ crossMatch zdf pf) ∧
    (∀ rb ∈ crossMatch zdf pf, (rb.2 = true ↔ rb.1.ticker ∈ pf)) := by
  constructor
  · intro r hr
    by_cases hm : (pf.filter (fun t => t = r.ticker)).isEmpty = true
    · refine ⟨false, List.mem_flatMap.mpr ⟨r, hr, ?_⟩⟩
      simp only [hm, if_pos]
      exact List.mem_singleton.mpr rfl
    · refine ⟨true, List.mem_flatMap.mpr ⟨r, hr, ?_⟩⟩
      simp only [hm, if_neg, Bool.false_eq_true, not_false_eq_true]
      have hne : pf.filter (fun t => t = r.ticker) ≠ [] := by
        intro h0
        exact hm (by simp [h0])
      obtain ⟨t, ht⟩ := List.exists_mem_of_ne_nil _ hne
      exact List.mem_map.mpr ⟨t, ht, rfl⟩
  · intro rb hmem
    obtain ⟨r, hr, hin⟩ := List.mem_flatMap.mp hmem
    by_cases hm : (pf.filter (fun t => t = r.ticker)).isEmpty = true
    · simp only [hm, if_pos] at hin
      have hrb : rb = (r, false) := List.mem_singleton.mp hin
      subst hrb
      simp only [Bool.false_eq_true, false_iff]
      intro hmem'
      have hnil := List.filter_eq_nil_iff.mp (List.isEmpty_iff.mp hm)
      exact absurd (by simp : decide (r.ticker = r.ticker) = true)
        (by simpa using hnil r.ticker hmem')
    · simp only [hm, if_neg, Bool.false_eq_true, not_false_eq_true] at hin
      obtain ⟨t, ht, hEq⟩ := List.mem_map.mp hin
      have hrb : rb = (r, true) := hEq.symm
      subst hrb
      simp only [true_iff]
      have := List.mem_filter.mp ht
      have ht2 : t = r.ticker := by simpa using this.2
      exact ht2 ▸ this.1

/-- C3 (witness): the theorem applied to a concrete screen/portfolio pair
— the unheld row `GOOG` is flagged `false`, i.e. not held. -/
theorem c3_cross_match_total_witness :
    (false = true ↔ (ZEntry.mk "GOOG" (some 1), false).1.ticker ∈ ["AAPL"]) :=
  (c3_cross_match_total [⟨"GOOG", some 1⟩] ["AAPL"]).2
    (⟨"GOOG", some 1⟩, false) (by decide)

/-! ## Claim C4 — best-rank deduplication -/

theorem dedup_subset {e : ZEntry} :
    ∀ {l : List ZEntry}, e ∈ dedupByTicker l → e ∈ l := by
  intro l
  induction l using dedupByTicker.induct with
  | case1 => intro h; simpa [dedupByTicker] using h
  | case2 r rs ih =>
    intro h
    rw [dedupByTicker] at h
    rcases List.mem_cons.mp h with h1 | h2
    · exact h1 ▸ List.mem_cons_self r rs
    · exact List.mem_cons_of_mem _ (List.mem_of_mem_filter (ih h2))

theorem find?_filter_compat {α : Type} {p q : α → Bool} {e : α} :
    ∀ {l : List α}, (∀ x ∈ l, q x = false → p x = false) →
      (l.filter q).find? p = some e → l.find? p = some e := by
  intro l
  induction l with
  | nil => intro _ h; simpa using h
  | cons x xs ih =>
    intro hcompat h
    by_cases hq : q x = true
    · rw [List.filter_cons, if_pos hq] at h
      by_cases hp : p x = true
      · rw [List.find?_cons_of_pos _ hp] at h ⊢
        exact h
      · rw [List.find?_cons_of_neg _ hp] at h
        rw [List.find?_cons_of_neg _ hp]
        exact ih (fun y hy => hcompat y (List.mem_cons_of_mem _ hy)) h
    · have hpx : p x = false :=
        hcompat x (List.mem_cons_self x xs) (by simpa using hq)
      rw [List.filter_cons, if_neg hq] at h
      rw [List.find?_cons_of_neg _ (by simp [hpx])]
      exact ih (fun y hy => hcompat y (List.mem_cons_of_mem _ hy)) h

/-- C4 (amended): the merged candidate set has exactly one entry per
ticker; the entry kept for a ticker is the *first* occurrence in
concatenation order (not the best-ranked one), and every input ticker is
represented.  No source set is recorded — the normalized rows carry no
source column at all. -/
theorem c4_dedup_amended (l : List ZEntry) :
    ((dedupByTicker l).map ZEntry.ticker).Nodup ∧
    (∀ e ∈ dedupByTicker l, l.find? (fun x => x.ticker = e.ticker) = some e) ∧
    (∀ x ∈ l, ∃ e ∈ dedupByTicker l, e.ticker = x.ticker) := by
  induction l using dedupByTicker.induct with
  | case1 => simp [dedupByTicker]
  | case2 r rs ih =>
    obtain ⟨ihnd, ihfind, ihcov⟩ := ih
    rw [dedupByTicker]
    refine ⟨?_, ?_, ?_⟩
    · rw [List.map_cons]
      refine List.nodup_cons.mpr ⟨?_, ihnd⟩
      intro hmem
      obtain ⟨e, he, heq⟩ := List.mem_map.mp hmem
      have hef := dedup_subset he
      have := (List.mem_filter.mp hef).2
      rw [heq] at this
      simp at this
    · intro e he
      rcases List.mem_cons.mp he with h1 | h2
      · subst h1
        exact List.find?_cons_of_pos _ (by simp)
      · have hne : e.ticker ≠ r.ticker := by
          have hef := dedup_subset h2
          have := (List.mem_filter.mp hef).2
          simpa using this
        have hrne : ¬(r.ticker = e.ticker) := fun hh => hne hh.symm
        rw [List.find?_cons_of_neg _ (by simpa using hrne)]
        refine find?_filter_compat ?_ (ihfind e h2)
        intro x _ hqx
        have hxr : x.ticker = r.ticker := by simpa using hqx
        simp [hxr, hrne]
    · intro x hx
      rcases List.mem_cons.mp hx with h1 | h2
      · exact ⟨r, List.mem_cons_self _ _, by rw [h1]⟩
      · by_cases hxr : x.ticker = r.ticker
        · exact ⟨r, List.mem_cons_self _ _, hxr.symm⟩
        · obtain ⟨e, he, heq⟩ := ihcov x
            (List.mem_filter.mpr ⟨h2, by simpa using hxr⟩)
          exact ⟨e, List.mem_cons_of_mem _ he, heq⟩

/-- C4 (witness): the amended theorem applied to a concrete duplicate —
the entry kept for `AAPL` is the first one (rank 3). -/
theorem c4_dedup_amended_witness :
    ([⟨"AAPL", some 3⟩, ⟨"AAPL", some 1⟩] : List ZEntry).find?
      (fun x => x.ticker = (ZEntry.mk "AAPL" (some 3)).ticker) =
      some ⟨"AAPL", some 3⟩ :=
  (c4_dedup_amended [⟨"AAPL", some 3⟩, ⟨"AAPL", some 1⟩]).2.1
    ⟨"AAPL", some 3⟩ (by simp [dedupByTicker])

/-- C4 (counterexample): with `AAPL` at rank 3 from one screen and rank 1
from another, the merged entry keeps rank 3 — the first occurrence — not
the numerically smallest rank 1. -/
theorem c4_dedup_counterexample :
    buildCombined [⟨"AAPL", some 3⟩] [⟨"AAPL", some 1⟩] [] =
      [⟨"AAPL", some 3⟩] ∧ (3 : ℚ) ≠ 1 := by
  constructor
  · simp [buildCombined, dedupByTicker]
  · decide

/-! ## Ordering lemmas for the stable sorts -/

theorem insLe_perm {α : Type} (le : α → α → Bool) (x : α) (l : List α) :
    (insLe le x l).Perm (x :: l) := by
  induction l with
  | nil => exact List.Perm.refl _
  | cons y ys ih =>
    rw [insLe]
    by_cases h : le x y = true
    · rw [if_pos h]
    · rw [if_neg h]
      exact (ih.cons y).trans (List.Perm.swap x y ys)

theorem isortLe_perm {α : Type} (le : α → α → Bool) (l : List α) :
    (isortLe le l).Perm l := by
  induction l with
  | nil => exact List.Perm.refl _
  | cons x xs ih =>
    rw [isortLe]
    exact (insLe_perm le x _).trans (ih.cons x)

theorem insLe_sorted {α : Type} {le : α → α → Bool}
    (htot : ∀ a b, le a b = true ∨ le b a = true)
    (htrans : ∀ a b c, le a b = true → le b c = true → le a c = true)
    (x : α) : ∀ {l : List α},
    List.Pairwise (fun a b => le a b = true) l →
    List.Pairwise (fun a b => le a b = true) (insLe le x l) := by
  intro l
  induction l with
  | nil => intro _; simp [insLe]
  | cons y ys ih =>
    intro hs
    have hys := List.pairwise_cons.mp hs
    rw [insLe]
    by_cases h : le x y = true
    · rw [if_pos h]
      refine List.pairwise_cons.mpr ⟨?_, hs⟩
      intro z hz
      rcases List.mem_cons.mp hz with h1 | h2
      · exact h1 ▸ h
      · exact htrans x y z h (hys.1 z h2)
    · rw [if_neg h]
      have hyx : le y x = true := (htot x y).resolve_left h
      refine List.pairwise_cons.mpr ⟨?_, ih hys.2⟩
      intro z hz
      have hz' : z ∈ x :: ys := (insLe_perm le x ys).mem_iff.mp hz
      rcases List.mem_cons.mp hz' with h1 | h2
      · exact h1 ▸ hyx
      · exact hys.1 z h2

theorem isortLe_sorted {α : Type} {le : α → α → Bool}
    (htot : ∀ a b, le a b = true ∨ le b a = true)
    (htrans : ∀ a b c, le a b = true → le b c = true → le a c = true)
    (l : List α) :
    List.Pairwise (fun a b => le a b = true) (isortLe le l) := by
  induction l with
  | nil => simp [isortLe]
  | cons x xs ih =>
    rw [isortLe]
    exact insLe_sorted htot htrans x ih

theorem getLast?_of_sorted_ge {α : Type} {le : α → α → Bool}
    (hrefl : ∀ a, le a a = true) {l : List α} {m : α}
    (hs : List.Pairwise (fun a b => le a b = true) l)
    (hm : l.getLast? = some m) : ∀ x ∈ l, le x m = true := by
  obtain ⟨ys, rfl⟩ := List.getLast?_eq_some_iff.mp hm
  intro x hx
  rcases List.mem_append.mp hx with hys | hxm
  · exact (List.pairwise_append.mp hs).2.2 x hys m (by simp)
  · have hxe : x = m := by simpa using hxm
    exact hxe ▸ hrefl m

theorem listLe_refl (l : List Char) : listLe l l = true := by
  induction l with
  | nil => rfl
  | cons a as ih =>
    rw [listLe]
    simp [Nat.lt_irrefl, ih]

theorem listLe_total (a b : List Char) :
    listLe a b = true ∨ listLe b a = true := by
  induction a generalizing b with
  | nil => exact Or.inl rfl
  | cons x xs ih =>
    cases b with
    | nil => exact Or.inr rfl
    | cons y ys =>
      rw [listLe, listLe]
      rcases Nat.lt_trichotomy x.toNat y.toNat with h | h | h
      · left; simp [h]
      · have h1 : ¬x.toNat < y.toNat := by omega
        have h2 : ¬y.toNat < x.toNat := by omega
        simpa [h1, h2] using ih ys
      · right; simp [h]

theorem listLe_trans (a b c : List Char) (h1 : listLe a b = true)
    (h2 : listLe b c = true) : listLe a c = true := by
  induction a generalizing b c with
  | nil => rfl
  | cons x xs ih =>
    cases b with
    | nil => simp [listLe] at h1
    | cons y ys =>
      cases c with
      | nil => simp [listLe] at h2
      | cons z zs =>
        rw [listLe] at h1 h2 ⊢
        by_cases hxy : x.toNat < y.toNat
        · by_cases hyz : y.toNat < z.toNat
          · simp [Nat.lt_trans hxy hyz]
          · by_cases hzy : z.toNat < y.toNat
            · simp [hxy, hyz, hzy] at h2
            · have hyzE : y.toNat = z.toNat := by omega
              simp [hyzE ▸ hxy]
        · by_cases hyx : y.toNat < x.toNat
          · simp [hxy, hyx] at h1
          · have hxyE : x.toNat = y.toNat := by omega
            by_cases hyz : y.toNat < z.toNat
            · simp [hxyE ▸ hyz]
            · by_cases hzy : z.toNat < y.toNat
              · simp [hyz, hzy] at h2
              · have hyzE : y.toNat = z.toNat := by omega
                have hxz : ¬x.toNat < z.toNat := by omega
                have hzx : ¬z.toNat < x.toNat := by omega
                simp only [hxy, hyx, if_neg, if_false] at h1
                simp only [hyz, hzy, if_neg, if_false] at h2
                simp [hxz, hzx, ih ys zs h1 h2]

theorem listLe_antisymm (a b : List Char) (h1 : listLe a b = true)
    (h2 : listLe b a = true) : a = b := by
  induction a generalizing b with
  | nil =>
    cases b with
    | nil => rfl
    | cons y ys => simp [listLe] at h2
  | cons x xs ih =>
    cases b with
    | nil => simp [listLe] at h1
    | cons y ys =>
      rw [listLe] at h1 h2
      by_cases hxy : x.toNat < y.toNat
      · have : ¬y.toNat < x.toNat := by omega
        simp [hxy, this] at h2
      · by_cases hyx : y.toNat < x.toNat
        · simp [hxy, hyx] at h1
        · have hE : x.toNat = y.toNat := by omega
          have hxe : x = y := Char.ext (UInt32.ext hE)
          simp only [hxy, hyx, if_neg, if_false] at h1 h2
          rw [hxe, ih ys h1 h2]

theorem dateLe_refl (p : String × String) : dateLe p p = true :=
  listLe_refl _

theorem dateLe_total (p q : String × String) :
    dateLe p q = true ∨ dateLe q p = true :=
  listLe_total _ _

theorem dateLe_trans (p q r : String × String) (h1 : dateLe p q = true)
    (h2 : dateLe q r = true) : dateLe p r = true :=
  listLe_trans _ _ _ h1 h2

theorem dateLe_antisymm {p q : String × String} (h1 : dateLe p q = true)
    (h2 : dateLe q p = true) : p.1 = q.1 := by
  have h := listLe_antisymm _ _ h1 h2
  cases p1 : p.1 with
  | mk d1 =>
    cases q1 : q.1 with
    | mk d2 =>
      rw [p1, q1] at h
      exact congrArg String.mk h

/-! ## Claim C5 — File Selector -/

theorem pickLatest_last_max (k : Kind) (paths : List String)
    (hne : candidatesFor k paths ≠ []) :
    ∃ t, (isortLe dateLe (candidatesFor k paths)).getLast? = some t ∧
      t ∈ candidatesFor k paths ∧
      pickLatest k paths = some t.2 ∧
      ∀ c ∈ candidatesFor k paths, dateLe c t = true := by
  have hperm := isortLe_perm dateLe (candidatesFor k paths)
  have hsne : isortLe dateLe (candidatesFor k paths) ≠ [] := by
    intro h0
    rw [h0] at hperm
    exact hne (List.perm_nil.mp hperm.symm)
  obtain ⟨m, hm⟩ := Option.isSome_iff_exists.mp (List.getLast?_isSome.mpr hsne)
  have hmem : m ∈ candidatesFor k paths := by
    obtain ⟨ys, hys⟩ := List.getLast?_eq_some_iff.mp hm
    apply hperm.mem_iff.mp
    rw [hys]
    exact List.mem_append.mpr (Or.inr (by simp))
  refine ⟨m, hm, hmem, ?_, ?_⟩
  · rw [pickLatest]
    rw [if_neg (by simpa [List.isEmpty_iff] using hne)]
    rw [hm]
    rfl
  · intro c hc
    exact getLast?_of_sorted_ge dateLe_refl
      (isortLe_sorted dateLe_total dateLe_trans _) hm c (hperm.mem_iff.mpr hc)

/-- C5 (amended): *when the matching files carry pairwise-distinct date
tokens*, `_pick_latest` returns the file with the lexicographically
largest date, and the result is invariant under permutation of the
listing.  (With tied date tokens it is listing-order dependent — see the
counterexample.) -/
theorem c5_selector_amended (k : Kind) (l l' : List String) (hp : l.Perm l')
    (hnd : ((candidatesFor k l).map Prod.fst).Nodup) :
    pickLatest k l = pickLatest k l' ∧
    (∀ r, pickLatest k l = some r →
      ∃ d, (d, r) ∈ candidatesFor k l ∧
        ∀ c ∈ candidatesFor k l, dateLe c (d, r) = true) := by
  have hcp : (candidatesFor k l).Perm (candidatesFor k l') :=
    List.Perm.filterMap _ hp
  by_cases hE : candidatesFor k l = []
  · have hE' : candidatesFor k l' = [] := by
      rw [hE] at hcp
      exact (List.perm_nil.mp hcp.symm)
    constructor
    · rw [pickLatest, pickLatest]
      simp [hE, hE']
    · intro r hr
      rw [pickLatest] at hr
      simp [hE] at hr
  · obtain ⟨t, _, htmem, htpick, htmax⟩ := pickLatest_last_max k l hE
    have hE2 : candidatesFor k l' ≠ [] := by
      intro h0
      rw [h0] at hcp
      exact hE (List.perm_nil.mp hcp)
    obtain ⟨t', _, htmem', htpick', htmax'⟩ := pickLatest_last_max k l' hE2
    have htmem'' : t' ∈ candidatesFor k l := hcp.mem_iff.mpr htmem'
    have h1 : dateLe t t' = true := htmax' t (hcp.mem_iff.mp htmem)
    have h2 : dateLe t' t = true := htmax t' htmem''
    have hfst : t.1 = t'.1 := dateLe_antisymm h1 h2
    have hEq : t = t' := List.inj_on_of_nodup_map hnd htmem htmem'' hfst
    constructor
    · rw [htpick, htpick', hEq]
    · intro r hr
      rw [htpick] at hr
      have hre : r = t.2 := by simpa using hr.symm
      subst hre
      exact ⟨t.1, htmem, htmax⟩

/-- C5 (witness): the amended theorem applied to the three concretely
dated files of the claim, under a rotation of the listing; the selector
returns the `2025-11-03` file either way. -/
theorem c5_selector_amended_witness :
    pickLatest Kind.g1
      ["zacks_custom_screen_2025-11-01 Growth 1.csv",
       "zacks_custom_screen_2025-11-03 Growth 1.csv",
       "zacks_custom_screen_2025-11-02 Growth 1.csv"] =
    pickLatest Kind.g1
      ["zacks_custom_screen_2025-11-02 Growth 1.csv",
       "zacks_custom_screen_2025-11-01 Growth 1.csv",
       "zacks_custom_screen_2025-11-03 Growth 1.csv"] ∧
    pickLatest Kind.g1
      ["zacks_custom_screen_2025-11-01 Growth 1.csv",
       "zacks_custom_screen_2025-11-03 Growth 1.csv",
       "zacks_custom_screen_2025-11-02 Growth 1.csv"] =
      some "zacks_custom_screen_2025-11-03 Growth 1.csv" :=
  ⟨(c5_selector_amended Kind.g1
      ["zacks_custom_screen_2025-11-01 Growth 1.csv",
       "zacks_custom_screen_2025-11-03 Growth 1.csv",
       "zacks_custom_screen_2025-11-02 Growth 1.csv"]
      ["zacks_custom_screen_2025-11-02 Growth 1.csv",
       "zacks_custom_screen_2025-11-01 Growth 1.csv",
       "zacks_custom_screen_2025-11-03 Growth 1.csv"]
      (by decide) (by decide)).1, by decide⟩

/-- C5 (counterexample): with two files sharing the same date token the
selector's result depends on the listing order, so it is not
permutation-invariant as claimed. -/
theorem c5_selector_counterexample :
    pickLatest Kind.g1
      ["zacks_custom_screen_2025-11-03 Growth 1.csv",
       "zacks_custom_screen_2025-11-03 Growth 1 alt.csv"] ≠
    pickLatest Kind.g1
      ["zacks_custom_screen_2025-11-03 Growth 1 alt.csv",
       "zacks_custom_screen_2025-11-03 Growth 1.csv"] := by decide

/-! ## Claim C6 — missing-file degradation -/

/-- C6: when the directory is missing or no file matches the pattern,
`load_latest_file` returns the `(None, None)` sentinel (`none`), and the
downstream stages applied to the resulting empty state — an empty screen
dictionary, an empty merged frame — produce empty tables, not errors. -/
theorem c6_missing_file (pattern : String) (dir : Option (List FileEnt))
    (hR hM hC : Bool) (n : ℕ)
    (h : ∀ fs, dir = some fs → ∀ f ∈ fs, fileMatches pattern f = false) :
    loadLatestFile pattern dir = none ∧
    mergeZacksScreens (fun _ => none) = [] ∧
    scoreZacks hR hM hC [] = [] ∧
    getTopN ([] : List (SRow × Option ℚ)) n = [] := by
  refine ⟨?_, rfl, rfl, rfl⟩
  cases dir with
  | none => rfl
  | some fs =>
    rw [loadLatestFile]
    have hnil : fs.filter (fileMatches pattern) = [] :=
      List.filter_eq_nil_iff.mpr (fun f hf => by simp [h fs rfl f hf])
    simp [hnil]

/-- C6 (witness): the theorem applied to a concrete directory holding
only a non-matching file. -/
theorem c6_missing_file_witness :
    loadLatestFile "zacks_custom_screen" (some [⟨"Portfolio_Positions.csv", 3⟩]) = none ∧
    mergeZacksScreens (fun _ => none) = [] ∧
    scoreZacks true true true [] = [] ∧
    getTopN ([] : List (SRow × Option ℚ)) 8 = [] :=
  c6_missing_file "zacks_custom_screen" (some [⟨"Portfolio_Positions.csv", 3⟩])
    true true true 8 (by decide)

/-! ## Claim C7 — division-by-zero safety -/

/-- C7: with a zero total value the average gain is the explicit missing
value `None`, the cash percentage is 0, and with zero total value or zero
candidate count every allocation is 0 — each division is guarded, never
raised. -/
theorem c7_division_guards (p : PTable) (cash capPct dfr tv : ℚ) (n : ℕ)
    (h : totalValueOf p = 0) :
    (computePortfolioMetrics p).2.2 = none ∧
    cashPct cash 0 = 0 ∧
    allocationDollar capPct dfr 0 n = 0 ∧
    allocationDollar capPct dfr tv 0 = 0 ∧
    perPositionPct capPct dfr tv 0 = 0 := by
  refine ⟨?_, ?_, ?_, ?_, ?_⟩
  · rw [computePortfolioMetrics]
    by_cases h1 : p.rows.isEmpty = true
    · simp [h1]
    · rw [if_neg h1]
      by_cases h2 : (p.hasTicker && !(cashRowsOf p).isEmpty
          && !p.hasCurrentValue) = true
      · simp [h2]
      · rw [if_neg h2]
        simp [h]
  · simp [cashPct]
  · rw [allocationDollar]
    exact mul_zero _
  · rw [allocationDollar, perPositionPct]
    simp
  · rw [perPositionPct]
    simp

/-- C7 (witness): the guards at a concrete zero-value portfolio (one
`cash` row whose `Current Value` is 0). -/
theorem c7_division_guards_witness :
    (computePortfolioMetrics
      ⟨[⟨Cell.str "cash", Cell.num 0, Cell.nan, Cell.nan⟩],
        true, true, true, false⟩).2.2 = none ∧
    cashPct 0 0 = 0 ∧
    allocationDollar (15 / 100) (85 / 100) 0 3 = 0 ∧
    allocationDollar (15 / 100) (85 / 100) 100000 0 = 0 ∧
    perPositionPct (15 / 100) (85 / 100) 100000 0 = 0 :=
  c7_division_guards
    ⟨[⟨Cell.str "cash", Cell.num 0, Cell.nan, Cell.nan⟩],
      true, true, true, false⟩
    0 (15 / 100) (85 / 100) 100000 3
    (by simp [totalValueOf, cvOf, cellToNum0, toNumericCoerce])

/-! ## Claim C1 — allocation cap invariant (spec-modelled) -/

/-- C1: for a positive total value and at least one rank-1 not-held
candidate, no candidate's allocation percentage exceeds the position cap,
and the summed dollar allocations never exceed
`deploy_fraction × total_value`. -/
theorem c1_allocation_cap (capPct dfr tv : ℚ) (n : ℕ)
    (htv : 0 < tv) (hn : 1 ≤ n) :
    perPositionPct capPct dfr tv n ≤ capPct ∧
    (allocationPlan capPct dfr tv n).sum ≤ dfr * tv := by
  have hn0 : n ≠ 0 := by omega
  have hnQ : (n : ℚ) ≠ 0 := Nat.cast_ne_zero.mpr hn0
  have hpct : perPositionPct capPct dfr tv n =
      min capPct ((deployableCash tv dfr / tv) / n) := by
    rw [perPositionPct, if_neg hn0]
  constructor
  · rw [hpct]
    exact min_le_left _ _
  · rw [allocationPlan, List.sum_replicate, nsmul_eq_mul, allocationDollar, hpct]
    have hded : deployableCash tv dfr / tv = dfr := by
      rw [deployableCash, mul_comm, mul_div_assoc, div_self (ne_of_gt htv),
        mul_one]
    rw [hded]
    have hle : min capPct (dfr / n) ≤ dfr / n := min_le_right _ _
    calc (n : ℚ) * (min capPct (dfr / n) * tv)
        ≤ (n : ℚ) * ((dfr / n) * tv) := by
          apply mul_le_mul_of_nonneg_left _ (by positivity)
          exact mul_le_mul_of_nonneg_right hle (le_of_lt htv)
      _ = dfr * tv := by
          field_simp
  

/-- C1 (witness): the spec's own scenario — `$100,000` total value,
`deploy_fraction = 0.85`, cap `15%`, two Buy candidates. -/
theorem c1_allocation_cap_witness :
    perPositionPct (15 / 100) (85 / 100) 100000 2 ≤ (15 / 100 : ℚ) ∧
    (allocationPlan (15 / 100) (85 / 100) 100000 2).sum ≤
      (85 / 100 : ℚ) * 100000 :=
  c1_allocation_cap (15 / 100) (85 / 100) 100000 2 (by norm_num) (by norm_num)

/-! ## Claim C10 — manual cash override precedence -/

/-- C10: the dashboard's available-cash figure is the manual override
whenever it is positive, and the portfolio-detected cash value (the sum
of `Current Value` over rows whose ticker is `"cash"` case-insensitively)
when the override is 0. -/
theorem c10_cash_override (p : PTable) (m : ℚ)
    (hT : p.hasTicker = true) (hCV : p.hasCurrentValue = true) :
    (0 < m → (computeDashboardMetrics p m).2.1 = m) ∧
    (m = 0 → (computeDashboardMetrics p m).2.1 =
      ((cashRowsOf p).map (fun r => cellToNum0 r.currentValue)).sum) := by
  constructor
  · intro hm
    rw [computeDashboardMetrics]
    simp [availableCash, hm]
  · intro hm
    subst hm
    rw [computeDashboardMetrics]
    simp only [availableCash, lt_irrefl, if_neg, if_false]
    rw [computePortfolioMetrics]
    by_cases h1 : p.rows.isEmpty = true
    · have : p.rows = [] := List.isEmpty_iff.mp h1
      simp [this, cashRowsOf]
    · rw [if_neg h1]
      rw [if_neg (by simp [hT, hCV])]
      by_cases h2 : (cashRowsOf p).isEmpty = true
      · have : cashRowsOf p = [] := List.isEmpty_iff.mp h2
        simp [hT, this]
      · simp [hT, h2]

/-- C10 (witness): the override at a concrete portfolio — with the
override 500 the available cash is 500; with the override 0 it is the
detected `cash` row value 50. -/
theorem c10_cash_override_witness :
    (computeDashboardMetrics
      ⟨[⟨Cell.str "Cash", Cell.num 50, Cell.nan, Cell.nan⟩,
        ⟨Cell.str "AAPL", Cell.num 100, Cell.nan, Cell.nan⟩],
        true, true, false, false⟩ 500).2.1 = 500 ∧
    (computeDashboardMetrics
      ⟨[⟨Cell.str "Cash", Cell.num 50, Cell.nan, Cell.nan⟩,
        ⟨Cell.str "AAPL", Cell.num 100, Cell.nan, Cell.nan⟩],
        true, true, false, false⟩ 0).2.1 =
      ((cashRowsOf
        ⟨[⟨Cell.str "Cash", Cell.num 50, Cell.nan, Cell.nan⟩,
          ⟨Cell.str "AAPL", Cell.num 100, Cell.nan, Cell.nan⟩],
          true, true, false, false⟩).map
        (fun r => cellToNum0 r.currentValue)).sum :=
  ⟨(c10_cash_override _ 500 rfl rfl).1 (by norm_num),
   (c10_cash_override _ 0 rfl rfl).2 rfl⟩

/-! ## Claim C8 — normalizer idempotence -/

theorem normalizeZacks_shape_tr (l1 l2 : List Cell) :
    normalizeZacks
      [("Ticker", l1.map asStr), ("Zacks Rank", l2.map toNumericCoerce)] =
      [("Ticker", l1.map asStr), ("Zacks Rank", l2.map toNumericCoerce)] := by
  by_cases hE : tableIsEmpty
      [("Ticker", l1.map asStr), ("Zacks Rank", l2.map toNumericCoerce)] = true
  · rw [normalizeZacks, if_pos hE]
  · rw [normalizeZacks, if_neg hE]
    have htc : tickerColOf
        [("Ticker", l1.map asStr), ("Zacks Rank", l2.map toNumericCoerce)] =
        some ("ticker", l1.map asStr) := rfl
    have hrc : findCol?
        (lowerCols [("Ticker", l1.map asStr),
          ("Zacks Rank", l2.map toNumericCoerce)]) rankKeys =
        some ("zacks rank", l2.map toNumericCoerce) := rfl
    rw [htc, hrc]
    show [("Ticker", (l1.map asStr).map asStr)] ++
        [("Zacks Rank", (l2.map toNumericCoerce).map toNumericCoerce)] = _
    simp only [List.map_map, Function.comp_def, asStr_asStr,
      toNumericCoerce_idem, List.cons_append, List.nil_append]

theorem normalizeZacks_shape_t (l1 : List Cell) :
    normalizeZacks [("Ticker", l1.map asStr)] = [("Ticker", l1.map asStr)] := by
  by_cases hE : tableIsEmpty [("Ticker", l1.map asStr)] = true
  · rw [normalizeZacks, if_pos hE]
  · rw [normalizeZacks, if_neg hE]
    have htc : tickerColOf [("Ticker", l1.map asStr)] =
        some ("ticker", l1.map asStr) := rfl
    have hrc : findCol? (lowerCols [("Ticker", l1.map asStr)]) rankKeys =
        none := rfl
    rw [htc, hrc]
    show [("Ticker", (l1.map asStr).map asStr)] ++ [] = _
    simp only [List.map_map, Function.comp_def, asStr_asStr, List.append_nil]

theorem normalizeZacks_shape_r (l2 : List Cell) :
    normalizeZacks [("Zacks Rank", l2.map toNumericCoerce)] =
      [("Zacks Rank", l2.map toNumericCoerce)] := by
  by_cases hE : tableIsEmpty [("Zacks Rank", l2.map toNumericCoerce)] = true
  · rw [normalizeZacks, if_pos hE]
  · rw [normalizeZacks, if_neg hE]
    have hlow : lowerCols [("Zacks Rank", l2.map toNumericCoerce)] =
        [("zacks rank", l2.map toNumericCoerce)] := rfl
    have htc : tickerColOf [("Zacks Rank", l2.map toNumericCoerce)] = none := by
      rw [tickerColOf]
      have hfc : findCol? (lowerCols [("Zacks Rank", l2.map toNumericCoerce)])
          tickerKeys = none := rfl
      rw [hfc]
      rw [fallbackTickerCol?, hlow]
      apply List.find?_eq_none.mpr
      intro col hcol
      have hcol' : col = ("zacks rank", l2.map toNumericCoerce) := by
        simpa using hcol
      rw [hcol']
      simp only [Bool.not_eq_true]
      apply List.any_eq_false.mpr
      intro cell hcell
      obtain ⟨c0, hc0, hc0e⟩ := List.mem_map.mp hcell
      rw [← hc0e]
      simp [tickerShaped_coerce]
    have hrc : findCol? (lowerCols [("Zacks Rank", l2.map toNumericCoerce)])
        rankKeys = some ("zacks rank", l2.map toNumericCoerce) := rfl
    rw [htc, hrc]
    show [] ++ [("Zacks Rank", (l2.map toNumericCoerce).map toNumericCoerce)] = _
    simp only [List.map_map, Function.comp_def, toNumericCoerce_idem,
      List.nil_append]

/-- C8: the column normalizer is idempotent — running `normalize_zacks`
twice produces the same frame as running it once, for every input frame. -/
theorem c8_normalizer_idempotent (t : Table) :
    normalizeZacks (normalizeZacks t) = normalizeZacks t := by
  by_cases h0 : tableIsEmpty t = true
  · have hu : normalizeZacks t = t := by rw [normalizeZacks, if_pos h0]
    rw [hu]
    exact hu
  · have hform : normalizeZacks t =
        (match tickerColOf t with
         | some c => [("Ticker", c.2.map asStr)]
         | none => []) ++
        (match findCol? (lowerCols t) rankKeys with
         | some c => [("Zacks Rank", c.2.map toNumericCoerce)]
         | none => []) := by
      rw [normalizeZacks, if_neg h0]
    cases htc : tickerColOf t with
    | some c1 =>
      cases hrc : findCol? (lowerCols t) rankKeys with
      | some c2 =>
        rw [hform, htc, hrc]
        show normalizeZacks [("Ticker", c1.2.map asStr),
          ("Zacks Rank", c2.2.map toNumericCoerce)] = _
        exact normalizeZacks_shape_tr c1.2 c2.2
      | none =>
        rw [hform, htc, hrc]
        show normalizeZacks [("Ticker", c1.2.map asStr)] = _
        exact normalizeZacks_shape_t c1.2
    | none =>
      cases hrc : findCol? (lowerCols t) rankKeys with
      | some c2 =>
        rw [hform, htc, hrc]
        show normalizeZacks [("Zacks Rank", c2.2.map toNumericCoerce)] = _
        exact normalizeZacks_shape_r c2.2
      | none =>
        rw [hform, htc, hrc]
        rfl
